import Mathlib

/-!
# Verification of FCPP execution-core claims

Shallow embedding of the parts of the FCPP runtime referenced by the
specification: the real-mode network manager (`lib/deployment/os.hpp`),
the coordination collection routines (`lib/coordination/collection.hpp`),
the logger component (`lib/component/logger.hpp`) and the graph spawner
(`lib/cloud/graph_spawner.hpp`).

Machine times (`times_t`, a floating-point type in the source) are
modelled as exact rationals; the one-byte timestamp is modelled as an
unsigned 8-bit quantity (an integer in `[0, 255]`).
-/

namespace FCPP

/-! ## Real-mode network manager (`os.hpp`, `fcpp::os::network::manage`) -/

/-- Truncation of a rational towards zero, as performed by a C++ cast
from a floating-point value to an integral type. -/
def truncToInt (q : ℚ) : ℤ :=
  if 0 ≤ q then ⌊q⌋ else ⌈q⌉

/-- The trailing byte appended by `network::manage` to an outgoing message:
`(char)std::min((internal_time() - m_send_time)*128, times_t{255})`,
where `dt` is the elapsed time since `send` was called. -/
def delayByte (dt : ℚ) : ℤ :=
  truncToInt (min (dt * 128) 255)

/-- The reception-time back-dating performed by `network::manage` on a
received message: `m.time = internal_time() - m.content.back() / times_t{128}`.
This is the delay subtracted from the current internal time. -/
def decodeDelay (b : ℤ) : ℚ :=
  (b : ℚ) / 128

/-- Receiving side of `network::manage`: back-date the message using the
trailing byte, then remove that byte
(`m.time = ... - m.content.back()/128; m.content.pop_back()`). -/
def decodeMessage (now : ℚ) (content : List ℤ) : ℚ × List ℤ :=
  (now - decodeDelay ((content.getLast?).getD 0), content.dropLast)

/-- State of the sending half of `fcpp::os::network`:
the pending message `m_send`, its schedule time `m_send_time`, and the
failed-attempt counter `m_attempt`. -/
structure SendState where
  msg : List ℤ
  sendTime : ℚ
  attempt : ℕ
  deriving Repr, DecidableEq

/-- `network::send`: schedule a message for broadcast, recording the
current internal time and resetting the attempt counter. -/
def sendSchedule (now : ℚ) (m : List ℤ) (s : SendState) : SendState :=
  { s with msg := m, sendTime := now, attempt := 0 }

/-- One iteration of the sending part of `network::manage`: if a message
is pending, append the delay byte and attempt transmission; on success
clear the message, on failure remove the byte (`pop_back`) and increment
the attempt counter. `ok` is the boolean returned by `transceiver.send`. -/
def manageSend (now : ℚ) (ok : Bool) (s : SendState) : SendState :=
  if s.msg = [] then s
  else
    let stamped := s.msg ++ [delayByte (now - s.sendTime)]
    if ok then { s with msg := [] }
    else { s with msg := stamped.dropLast, attempt := s.attempt + 1 }

/-- Iterated manager loop: a list of (current internal time, transceiver
outcome) pairs, processed in order by `manageSend`. -/
def manageRun (runs : List (ℚ × Bool)) (s : SendState) : SendState :=
  runs.foldl (fun st r => manageSend r.1 r.2 st) s

/-! ## Coordination collection routines (`collection.hpp`) -/

/-- Modelled from the spec: `fold_hood(node, cp, op, x)` left-folds an
accumulation function across the values of a field over the aligned
neighbourhood, in ascending uid order, with the local value folded in
exactly once (the neighbourhood always contains self, so the list is
nonempty; the empty case is vacuous). The field is represented by the
list of its values in ascending uid order. -/
def fold_hood (op : ℤ → ℤ → ℤ) : List ℤ → ℤ
  | [] => 0
  | x :: xs => xs.foldl op x

/-- Modelled from the spec: the field produced by `nbr(node, cp, init, f)`
at a call point, given the previous exports `prev` of the devices at that
call point, the ascending list `dom` of uids present in the context
(self included), and the field default (the device's own previous value
at the call point, or `init` if none). -/
def ctxField (prev : ℕ → Option ℤ) (dom : List ℕ) (dflt : ℤ) : List ℤ :=
  dom.map (fun e => (prev e).getD dflt)

/-- One round of `fcpp::coordination::gossip` on device `d`:
`nbr(node, call_point, value, [&](field<T> x){
   return accumulate(fold_hood(node, call_point, accumulate, x), value); })`.
`ctx` gives the ascending uid domain of `d`'s context and `prev` the
previous exports at this call point. -/
def gossipRound (acc : ℤ → ℤ → ℤ) (value : ℕ → ℤ) (ctx : ℕ → List ℕ)
    (prev : ℕ → Option ℤ) (d : ℕ) : ℤ :=
  acc (fold_hood acc (ctxField prev (ctx d) ((prev d).getD (value d)))) (value d)

/-- `gossip_min`: gossip with `std::min` as accumulator. -/
def gossip_min_round (value : ℕ → ℤ) (ctx : ℕ → List ℕ)
    (prev : ℕ → Option ℤ) (d : ℕ) : ℤ :=
  gossipRound min value ctx prev d

/-- The three-device scenario of the spec: uids `{1,2,3}` with initial
values `{5,2,9}`. -/
def scenValue : ℕ → ℤ :=
  fun d => if d = 1 then 5 else if d = 2 then 2 else 9

/-- First round of every device: no exports have been received yet, so
each context contains only self (with no previous export). -/
def scenRound1 (d : ℕ) : ℤ :=
  gossip_min_round scenValue (fun e => [e]) (fun _ => none) d

/-- Second round of every device: the network is fully connected, so the
context of each device holds the first-round exports of all of `{1,2,3}`. -/
def scenRound2 (d : ℕ) : ℤ :=
  gossip_min_round scenValue (fun _ => [1, 2, 3]) (fun e => some (scenRound1 e)) d

/-- Modelled from the spec: minimum of two tuples `(distance, uid)` under
the lexicographic order, as used by `min_hood`; when the distances are
equal the smaller uid is preferred. -/
def pairMin (a b : ℚ × ℕ) : ℚ × ℕ :=
  if a.1 < b.1 then a
  else if b.1 < a.1 then b
  else if a.2 ≤ b.2 then a else b

/-- Modelled from the spec: `min_hood(node, cp, x)` folds the binary
minimum across the field values over the neighbourhood, in ascending uid
order (the neighbourhood always contains self, so the list is nonempty). -/
def min_hood : List (ℚ × ℕ) → ℚ × ℕ
  | [] => (0, 0)
  | x :: xs => xs.foldl pairMin x

/-- Parent selection in `fcpp::coordination::sp_collection`:
`get<1>(min_hood(node, 0, make_tuple(nbr(node, 1, distance), nbr(node, 2, node.uid))))`.
`dist` gives each neighbour's distance estimate and `hood` is the
ascending uid list of the aligned neighbourhood (self included). -/
def sp_parent (dist : ℕ → ℚ) (hood : List ℕ) : ℕ :=
  (min_hood (hood.map (fun e => (dist e, e)))).2

/-- `sum_hood(node, cp, x, 0)`: sum of the field values over the
neighbourhood. -/
def sum_hood (xs : List ℚ) : ℚ := xs.sum

/-- The normalising divisor of `fcpp::coordination::wmp_collection`:
`real_t factor = sum_hood(node, 0, out_w, real_t{0}); if (factor == 0) factor = 1;`. -/
def wmp_factor (out_w : List ℚ) : ℚ :=
  let factor := sum_hood out_w
  if factor = 0 then 1 else factor

/-- The outgoing-weight field divided by the normalising factor, the local
value broadcast in `wmp_collection` by `nbr(node, 1, out_w / factor)`
(field division by a scalar is pointwise). -/
def wmp_normalised (out_w : List ℚ) : List ℚ :=
  out_w.map (fun w => w / wmp_factor out_w)

/-! ## Graph spawner (`graph_spawner.hpp`) -/

/-- `net::read_arcs` / `net::read_arc`: repeatedly extract two uids from
the arcs stream and connect the first node to the second; stop at the
first failed extraction. The stream is modelled by its list of numeric
tokens (an extraction fails exactly when the stream is exhausted, i.e.
at end-of-file). Returns the list of `connect` operations performed, in
order. -/
def read_arcs : List ℕ → List (ℕ × ℕ)
  | a :: b :: rest => (a, b) :: read_arcs rest
  | _ => []

/-- The conversion applied when a `tags::start` initialisation value (a
`times_t`) is stored into the `size_t m_start` member: fractional values
truncate toward zero and negative integral values wrap modulo `2^64`
(the unsigned conversion; the unsigned width is `2^64` for a 64-bit
`size_t`). -/
def size_t_of (q : ℚ) : ℕ :=
  (truncToInt q % 2 ^ 64).toNat

/-- `m_start(common::get_or<tags::start>(t, 0))`: the default start,
taken from the net initialisation tuple (or `0` when absent) and stored
into the `size_t` member `m_start`. -/
def m_start (initStart : Option ℚ) : ℕ :=
  size_t_of (initStart.getD 0)

/-- `net::push_time`: when `tags::start` is not among the declared node
attributes, push a `start` field holding `m_start` (converted back to
`times_t` by the assignment `get<tags::start>(tt) = this->m_start`) at
the back of the tuple read from the nodes file; when it is declared, the
tuple already holds it and is returned unchanged. Tuples are modelled as
tag/value association lists in declaration order. -/
def push_time (hasStart : Bool) (mstart : ℕ) (row : List (String × ℚ)) :
    List (String × ℚ) :=
  if hasStart then row else row ++ [("start", (mstart : ℚ))]

/-- The consecutive full chunks of size `n` of a token list: the rows
successfully extracted by `read_row`, which reads one value per declared
attribute tag and fails (at end-of-file) when the tokens run out. -/
def full_chunks (n : ℕ) (toks : List ℚ) : List (List ℚ) :=
  if _hn : 0 < n ∧ n ≤ toks.length then
    toks.take n :: full_chunks n (toks.drop n)
  else []
  termination_by toks.length
  decreasing_by
    simp only [List.length_drop]
    omega

/-- `net::read_nodes`: read attribute tuples (one value per declared tag,
in declaration order) from the nodes stream until extraction fails, add a
`start` time to each via `push_time`, and emplace the resulting nodes.
Returns the list of emplaced tuples. `tags` is the declared attribute tag
list (required nonempty for the read loop to consume input). -/
def read_nodes (tags : List String) (initStart : Option ℚ) (toks : List ℚ) :
    List (List (String × ℚ)) :=
  (full_chunks tags.length toks).map
    (fun c => push_time (decide ("start" ∈ tags)) (m_start initStart) (tags.zip c))

/-! ## Logger component (`logger.hpp`) -/

/-- Simulated time including `TIME_MAX` (infinity). -/
abbrev Time := WithTop ℚ

/-- The pending event times of the log schedule (`m_schedule`), in order;
`next()` is the head and `step` drops it, `TIME_MAX` when exhausted. -/
def schedNext (pending : List ℚ) : Time :=
  match pending with
  | [] => ⊤
  | t :: _ => (t : Time)

/-- State of the logger `net` component over a parent-net state type `π`
and an aggregator state type `α`: the parent state, the log schedule, the
aggregator tuple (`m_aggregators`, one entry per declared aggregator) and
the data lines written so far to the output stream. -/
structure LogState (π α : Type) where
  parent : π
  pending : List ℚ
  aggs : List α
  lines : List (Time × List String)

/-- `logger::net::next()`: the minimum of the log schedule's next time and
the parent net's next time. `pnext` is the parent's `next()`. -/
def loggerNext {π α : Type} (pnext : π → Time) (s : LogState π α) : Time :=
  min (schedNext s.pending) (pnext s.parent)

/-- `logger::net::update()`: if the log schedule's next event comes
strictly before the parent's, pull data from the nodes when in pull mode
(`data_puller`), write one data line (the scheduled time followed by each
aggregator's output), step the schedule, and in pull mode reset the
aggregators to a default tuple; otherwise delegate to the parent's
`update()`. `pupdate` is the parent's `update`, `pull` models
`data_puller` inserting every node's storage into the aggregators, `out`
an aggregator's `output`, and `reset` a default-constructed aggregator. -/
def loggerUpdate {π α : Type} (pnext : π → Time) (pupdate : π → π)
    (pull : π → List α → List α) (out : α → String) (reset : α)
    (valuePush : Bool) (s : LogState π α) : LogState π α :=
  if schedNext s.pending < pnext s.parent then
    let a := if valuePush then s.aggs else pull s.parent s.aggs
    { s with
      lines := s.lines ++ [(schedNext s.pending, a.map out)],
      pending := s.pending.tail,
      aggs := if valuePush then a else a.map (fun _ => reset) }
  else { s with parent := pupdate s.parent }

/-- The `tags::output` initialisation value: either a caller-supplied
stream pointer, or a path given as `std::string` or `const char*`. -/
inductive OutputInit where
  | stream : OutputInit
  | path : String → OutputInit
  deriving Repr, DecidableEq

/-- The sink selected by `details::make_stream`: a borrowed stream (the
shared pointer has a no-op deleter, so no ownership is taken) or an owned
file stream opened at a path. -/
inductive Sink where
  | borrowedStream : Sink
  | file : String → Sink
  deriving Repr, DecidableEq

/-- Modelled from the spec:
`t.print(ss, common::underscore_tuple, common::skip_tags<tags::name,tags::output,tags::plotter>)`
renders the net's initialisation parameters (tag/value pairs in order),
skipping the `name`, `output` and `plotter` tags, joined by underscores. -/
def printParams (ps : List (String × String)) : String :=
  String.intercalate "_"
    ((ps.filter (fun p => p.1 ∉ ["name", "output", "plotter"])).map
      (fun p => p.1 ++ "-" ++ p.2))

/-- `details::make_stream`: a stream pointer is used directly (without
ownership); a path whose last character is `/` or `\` is a directory, to
which a generated file name is appended (the `tags::name` value plus an
underscore when nonempty, then the printed initialisation parameters,
then `".txt"`); any other path opens a file there. `name` is the
`tags::name` value and `ps` the initialisation parameters. -/
def make_stream (o : OutputInit) (name : String) (ps : List (String × String)) :
    Sink :=
  match o with
  | .stream => .borrowedStream
  | .path s =>
      if s.back = '/' ∨ s.back = '\\' then
        .file (s ++ (if name.length > 0 then name ++ "_" else "") ++
          printParams ps ++ ".txt")
      else .file s

/-- A live node as seen by the push-mode logger: its uid, current storage
tuple (modelled by an integer) and whether it is currently inside a round
(between `round_start` and `round_end`). -/
structure LNode where
  uid : ℕ
  storage : ℤ
  inRound : Bool
  deriving Repr, DecidableEq

/-- Push-mode logger net state: the live nodes and the aggregator
contents (`m_aggregators`), a multiset of storage tuples since each
aggregator holds one contribution per inserted tuple. -/
structure AggState where
  nodes : List LNode
  agg : Multiset ℤ
  deriving DecidableEq

/-- The storage-mutating lifecycle events of the logger component in push
mode: node construction (which inserts the storage tuple), `round_start`
(which erases it), a storage write during the round body, `round_end`
(which re-inserts it) and node destruction (which erases it). -/
inductive Evt where
  | emplace (uid : ℕ) (s : ℤ)
  | roundStart (uid : ℕ)
  | setStorage (uid : ℕ) (s : ℤ)
  | roundEnd (uid : ℕ)
  | erase (uid : ℕ)
  deriving Repr, DecidableEq

/-- Update the node with the given uid. -/
def setIn (u : ℕ) (f : LNode → LNode) (nodes : List LNode) : List LNode :=
  nodes.map (fun n => if n.uid = u then f n else n)

/-- One lifecycle event in push mode, following `logger::component::node`:
the constructor calls `aggregator_insert(storage_tuple())`, `round_start`
calls `aggregator_erase(storage_tuple())` (before any storage write of
the round), `round_end` calls `aggregator_insert(storage_tuple())` with
the updated storage, and the destructor calls
`aggregator_erase(storage_tuple())`. Events violating the component
protocol (duplicate uid, unknown uid, a round operation in the wrong
phase, a storage write outside a round, destruction mid-round) yield
`none`. -/
def stepEvt (s : AggState) (e : Evt) : Option AggState :=
  match e with
  | .emplace u v =>
      if s.nodes.any (fun n => n.uid = u) then none
      else some ⟨⟨u, v, false⟩ :: s.nodes, v ::ₘ s.agg⟩
  | .roundStart u =>
      match s.nodes.find? (fun n => n.uid = u) with
      | none => none
      | some n =>
          if n.inRound then none
          else some ⟨setIn u (fun m => { m with inRound := true }) s.nodes,
            s.agg.erase n.storage⟩
  | .setStorage u v =>
      match s.nodes.find? (fun n => n.uid = u) with
      | none => none
      | some n =>
          if n.inRound then
            some ⟨setIn u (fun m => { m with storage := v }) s.nodes, s.agg⟩
          else none
  | .roundEnd u =>
      match s.nodes.find? (fun n => n.uid = u) with
      | none => none
      | some n =>
          if n.inRound then
            some ⟨setIn u (fun m => { m with inRound := false }) s.nodes,
              n.storage ::ₘ s.agg⟩
          else none
  | .erase u =>
      match s.nodes.find? (fun n => n.uid = u) with
      | none => none
      | some n =>
          if n.inRound then none
          else some ⟨s.nodes.filter (fun m => m.uid ≠ u), s.agg.erase n.storage⟩

/-- Run a list of lifecycle events from the empty net. -/
def runEvts (es : List Evt) : Option AggState :=
  es.foldl (fun acc e => acc.bind (fun s => stepEvt s e)) (some ⟨[], 0⟩)

/-- The aggregator contents implied by the node population: one
contribution per node that is not inside a round, equal to its current
storage tuple. -/
def aggOf (nodes : List LNode) : Multiset ℤ :=
  ((nodes.filter (fun n => !n.inRound)).map (fun n => n.storage) : List ℤ)

/-- The push-mode logger invariant: live uids are unique and the
aggregators hold exactly the storage tuples of the nodes not currently
inside a round. -/
def Inv (s : AggState) : Prop :=
  (s.nodes.map (fun n => n.uid)).Nodup ∧ s.agg = aggOf s.nodes

/-! ## Theorems -/

/-- C3: for three fully connected devices with uids `{1,2,3}` and initial
values `{5,2,9}` running `gossip_min`, after two rounds of every device
the stored gossip value of all three devices equals `2`. -/
theorem gossip_min_two_rounds :
    FCPP.scenRound2 1 = 2 ∧ FCPP.scenRound2 2 = 2 ∧ FCPP.scenRound2 3 = 2 := by
  decide

/-- C4: in `sp_collection` the parent is the second component of
`min_hood` over pairs (neighbour distance, neighbour uid); for two
neighbouring devices with identical distance estimates, both evaluate
`sp_parent` on the same ascending-uid neighbourhood and obtain the
smaller uid. -/
theorem sp_collection_tiebreak (dist : ℕ → ℚ) (a b : ℕ) (hab : a < b)
    (hd : dist a = dist b) : FCPP.sp_parent dist [a, b] = a := by
  simp only [FCPP.sp_parent, FCPP.min_hood, List.map, List.foldl, FCPP.pairMin, hd]
  simp [lt_irrefl, Nat.le_of_lt hab]

/-- C4 witness: uids `{7, 11}` with identical distance estimates both
select parent `7`. -/
theorem sp_collection_tiebreak_witness :
    FCPP.sp_parent (fun _ => (3 : ℚ)) [7, 11] = 7 :=
  sp_collection_tiebreak (fun _ => (3 : ℚ)) 7 11 (by decide) rfl

/-- C10: in `wmp_collection` the normalising divisor is never zero, and
when the sum of out-weights over the neighbourhood is zero the broadcast
incoming-weight field equals the raw out-weight field. -/
theorem wmp_factor_nonzero (out_w : List ℚ) :
    FCPP.wmp_factor out_w ≠ 0 ∧
    (FCPP.sum_hood out_w = 0 → FCPP.wmp_normalised out_w = out_w) := by
  constructor
  · by_cases h : FCPP.sum_hood out_w = 0 <;> simp [FCPP.wmp_factor, h]
  · intro h
    simp [FCPP.wmp_normalised, FCPP.wmp_factor, h]

/-- C10 witness: for the all-zero out-weight field the divisor is nonzero
and normalisation is the identity. -/
theorem wmp_factor_nonzero_witness :
    FCPP.wmp_factor [0, 0] ≠ 0 ∧ FCPP.wmp_normalised [0, 0] = [0, 0] :=
  ⟨(wmp_factor_nonzero [0, 0]).1,
   (wmp_factor_nonzero [0, 0]).2 (by simp [FCPP.sum_hood])⟩

/-- C7: each pair read from the arcs stream produces exactly one directed
connect, with no reverse link; an undirected edge needs the pair in both
directions; reading stops when the tokens are exhausted (the stream model
of end-of-file), leaving at most one unread token. -/
theorem read_arcs_directed (a b : ℕ) (rest : List ℕ) (hne : a ≠ b) :
    FCPP.read_arcs (a :: b :: rest) = (a, b) :: FCPP.read_arcs rest ∧
    FCPP.read_arcs [a, b] = [(a, b)] ∧
    (b, a) ∉ FCPP.read_arcs [a, b] ∧
    FCPP.read_arcs [a, b, b, a] = [(a, b), (b, a)] ∧
    FCPP.read_arcs [a] = [] ∧
    FCPP.read_arcs ([] : List ℕ) = [] := by
  refine ⟨rfl, rfl, ?_, rfl, rfl, rfl⟩
  simp only [FCPP.read_arcs, List.mem_singleton, Prod.mk.injEq, not_and]
  intro h
  exact absurd h.symm hne

/-- C7 witness: the arc stream `0 1` yields the single directed connect
`(0, 1)` and no reverse connect. -/
theorem read_arcs_directed_witness :
    FCPP.read_arcs [0, 1] = [(0, 1)] ∧ (1, 0) ∉ FCPP.read_arcs [0, 1] :=
  ⟨(read_arcs_directed 0 1 [] (by decide)).2.1,
   (read_arcs_directed 0 1 [] (by decide)).2.2.1⟩

/-- C6: the logger's sink selection: a stream pointer is used directly
without taking ownership; a path ending in `/` or `\` is a directory to
which the generated file name (name, underscore, printed parameters,
`".txt"`) is appended; any other path is used as the file name. -/
theorem make_stream_spec (name : String) (ps : List (String × String))
    (s : String) :
    FCPP.make_stream .stream name ps = .borrowedStream ∧
    (¬(s.back = '/' ∨ s.back = '\\') →
      FCPP.make_stream (.path s) name ps = .file s) ∧
    ((s.back = '/' ∨ s.back = '\\') →
      FCPP.make_stream (.path s) name ps =
        .file (s ++ (if name.length > 0 then name ++ "_" else "") ++
          FCPP.printParams ps ++ ".txt")) := by
  refine ⟨rfl, ?_, ?_⟩ <;> intro h <;> simp [FCPP.make_stream, h]

/-- C6 witness: a directory path `"out/"` with name `"exp"` and one
parameter produces the generated file name; a plain path is kept. -/
theorem make_stream_spec_witness :
    FCPP.make_stream (.path "out/") "exp" [("seed", "1")] =
      .file ("out/" ++ "exp_" ++ FCPP.printParams [("seed", "1")] ++ ".txt") ∧
    FCPP.make_stream (.path "log.txt") "exp" [("seed", "1")] = .file "log.txt" := by
  refine ⟨(make_stream_spec "exp" [("seed", "1")] "out/").2.2 ?_,
    (make_stream_spec "exp" [("seed", "1")] "log.txt").2.1 ?_⟩ <;> decide

/-- C1: the manager appends exactly one trailing byte computed as
`min(dt*128, 255)` cast to char; reception back-dates by the trailing
byte over 128 and strips it; for `0 ≤ dt ≤ 255/128` the decoded delay
recovers `dt` up to `1/128`, and larger delays clamp the byte to `255`. -/
theorem timestamp_roundtrip (msg : List ℤ) (t0 t1 t2 : ℚ) (h : t0 ≤ t1) :
    (msg ++ [FCPP.delayByte (t1 - t0)]).length = msg.length + 1 ∧
    (FCPP.decodeMessage t2 (msg ++ [FCPP.delayByte (t1 - t0)])).2 = msg ∧
    (FCPP.decodeMessage t2 (msg ++ [FCPP.delayByte (t1 - t0)])).1 =
      t2 - FCPP.decodeDelay (FCPP.delayByte (t1 - t0)) ∧
    (t1 - t0 ≤ 255 / 128 →
      FCPP.decodeDelay (FCPP.delayByte (t1 - t0)) ≤ t1 - t0 ∧
      (t1 - t0) - FCPP.decodeDelay (FCPP.delayByte (t1 - t0)) ≤ 1 / 128) ∧
    (255 / 128 < t1 - t0 → FCPP.delayByte (t1 - t0) = 255) := by
  have h0 : (0 : ℚ) ≤ t1 - t0 := by linarith
  refine ⟨by simp, ?_, ?_, ?_, ?_⟩
  · simp [FCPP.decodeMessage]
  · simp [FCPP.decodeMessage]
  · intro h1
    have h128 : (t1 - t0) * 128 ≤ 255 := by linarith
    have hb : FCPP.delayByte (t1 - t0) = ⌊(t1 - t0) * 128⌋ := by
      unfold FCPP.delayByte FCPP.truncToInt
      rw [min_eq_left h128, if_pos (by positivity)]
    have hfl : ((⌊(t1 - t0) * 128⌋ : ℤ) : ℚ) ≤ (t1 - t0) * 128 := Int.floor_le _
    have hfu : (t1 - t0) * 128 < ((⌊(t1 - t0) * 128⌋ : ℤ) : ℚ) + 1 :=
      Int.lt_floor_add_one _
    rw [hb]
    unfold FCPP.decodeDelay
    constructor
    · rw [div_le_iff₀ (by norm_num)]
      exact hfl
    · rw [sub_le_iff_le_add, div_add_div_same, le_div_iff₀ (by norm_num)]
      linarith
  · intro h2
    unfold FCPP.delayByte FCPP.truncToInt
    rw [min_eq_right (by linarith), if_pos (by norm_num)]
    norm_num

/-- C1 witness: a delay of one time unit is recovered within `1/128`. -/
theorem timestamp_roundtrip_witness :
    FCPP.decodeDelay (FCPP.delayByte ((1 : ℚ) - 0)) ≤ (1 : ℚ) - 0 ∧
    ((1 : ℚ) - 0) - FCPP.decodeDelay (FCPP.delayByte ((1 : ℚ) - 0)) ≤ 1 / 128 :=
  (timestamp_roundtrip [] 0 1 2 (by norm_num)).2.2.2.1 (by norm_num)

/-- A manager iteration on an empty pending message leaves the state
unchanged. -/
theorem manageSend_empty (now : ℚ) (ok : Bool) (s : FCPP.SendState)
    (h : s.msg = []) : FCPP.manageSend now ok s = s := by
  simp [FCPP.manageSend, h]

/-- A failed send attempt restores the pending message (the appended
timestamp byte is popped). -/
theorem manageSend_false_msg (now : ℚ) (s : FCPP.SendState) :
    (FCPP.manageSend now false s).msg = s.msg := by
  by_cases h : s.msg = [] <;> simp [FCPP.manageSend, h]

/-- A successful send attempt clears the pending message. -/
theorem manageSend_true_msg (now : ℚ) (s : FCPP.SendState) :
    (FCPP.manageSend now true s).msg = [] := by
  by_cases h : s.msg = [] <;> simp [FCPP.manageSend, h]

/-- Once the pending message is cleared it stays cleared over any run. -/
theorem manageRun_msg_nil (runs : List (ℚ × Bool)) :
    ∀ s : FCPP.SendState, s.msg = [] → (FCPP.manageRun runs s).msg = [] := by
  induction runs with
  | nil => intro s h; exact h
  | cons r rs ih =>
      intro s h
      have hstep : FCPP.manageRun (r :: rs) s =
          FCPP.manageRun rs (FCPP.manageSend r.1 r.2 s) := rfl
      rw [hstep, manageSend_empty r.1 r.2 s h]
      exact ih s h

/-- Over any run of manager iterations, a nonempty pending message is
cleared exactly when some attempt succeeds. -/
theorem manageRun_pending (runs : List (ℚ × Bool)) :
    ∀ s : FCPP.SendState, s.msg ≠ [] →
      ((FCPP.manageRun runs s).msg = [] ↔ ∃ r ∈ runs, r.2 = true) := by
  induction runs with
  | nil => intro s h; simpa [FCPP.manageRun] using h
  | cons r rs ih =>
      intro s h
      have hstep : FCPP.manageRun (r :: rs) s =
          FCPP.manageRun rs (FCPP.manageSend r.1 r.2 s) := rfl
      rw [hstep]
      cases hr : r.2 with
      | true =>
          have hnil : (FCPP.manageSend r.1 true s).msg = [] :=
            manageSend_true_msg r.1 s
          refine iff_of_true ?_ ⟨r, by simp, hr⟩
          exact manageRun_msg_nil rs _ hnil
      | false =>
          have hm : (FCPP.manageSend r.1 false s).msg = s.msg :=
            manageSend_false_msg r.1 s
          rw [ih _ (by rw [hm]; exact h)]
          simp [hr]

/-- C2: with a nonempty pending message, a failed attempt leaves the
message pending (timestamp byte removed) and increments the attempt
counter by one; a successful attempt clears it; over any sequence of
manager iterations the message is cleared exactly when some attempt
succeeds (otherwise it is still pending for retry). -/
theorem manage_send_retry (s : FCPP.SendState) (hmsg : s.msg ≠ []) (now : ℚ)
    (runs : List (ℚ × Bool)) :
    (FCPP.manageSend now false s).msg = s.msg ∧
    (FCPP.manageSend now false s).attempt = s.attempt + 1 ∧
    (FCPP.manageSend now false s).sendTime = s.sendTime ∧
    (FCPP.manageSend now true s).msg = [] ∧
    ((FCPP.manageRun runs s).msg = [] ↔ ∃ r ∈ runs, r.2 = true) := by
  refine ⟨manageSend_false_msg now s, ?_, ?_, manageSend_true_msg now s,
    manageRun_pending runs s hmsg⟩ <;> simp [FCPP.manageSend, hmsg]

/-- C2 witness: a pending one-byte message, failed once then sent
successfully. -/
theorem manage_send_retry_witness :
    (FCPP.manageSend 0 false ⟨[1], 0, 0⟩).msg = [1] ∧
    (FCPP.manageSend 0 false ⟨[1], 0, 0⟩).attempt = 0 + 1 ∧
    (FCPP.manageSend 0 false ⟨[1], 0, 0⟩).sendTime = 0 ∧
    (FCPP.manageSend 0 true ⟨[1], 0, 0⟩).msg = [] ∧
    ((FCPP.manageRun [(1, false), (2, true)] ⟨[1], 0, 0⟩).msg = [] ↔
      ∃ r ∈ [((1 : ℚ), false), ((2 : ℚ), true)], r.2 = true) :=
  manage_send_retry ⟨[1], 0, 0⟩ (by simp) 0 [(1, false), (2, true)]

/-- C5: when the log schedule's next time comes strictly before the
parent net's next event, `update()` writes exactly one data line (the
scheduled log time followed by one output per declared aggregator),
advances the log schedule by exactly one step, and in pull mode resets
the aggregators afterwards; otherwise it writes nothing and delegates to
the parent; `next()` is always the minimum of the schedule's and the
parent's next times. `hpull` records that `data_puller` only inserts into
the existing aggregators, preserving their number. -/
theorem logger_update_spec {π α : Type} (pnext : π → FCPP.Time)
    (pupdate : π → π) (pull : π → List α → List α) (out : α → String)
    (reset : α) (valuePush : Bool) (s : FCPP.LogState π α)
    (hpull : ∀ p a, (pull p a).length = a.length) :
    (FCPP.schedNext s.pending < pnext s.parent →
      (FCPP.loggerUpdate pnext pupdate pull out reset valuePush s).lines =
        s.lines ++ [(FCPP.schedNext s.pending,
          (if valuePush then s.aggs else pull s.parent s.aggs).map out)] ∧
      ((if valuePush then s.aggs else pull s.parent s.aggs).map out).length =
        s.aggs.length ∧
      (FCPP.loggerUpdate pnext pupdate pull out reset valuePush s).pending =
        s.pending.tail ∧
      (FCPP.loggerUpdate pnext pupdate pull out reset valuePush s).parent =
        s.parent ∧
      (valuePush = false →
        (FCPP.loggerUpdate pnext pupdate pull out reset valuePush s).aggs =
          List.replicate s.aggs.length reset) ∧
      (valuePush = true →
        (FCPP.loggerUpdate pnext pupdate pull out reset valuePush s).aggs =
          s.aggs)) ∧
    (¬ FCPP.schedNext s.pending < pnext s.parent →
      (FCPP.loggerUpdate pnext pupdate pull out reset valuePush s).lines =
        s.lines ∧
      (FCPP.loggerUpdate pnext pupdate pull out reset valuePush s).pending =
        s.pending ∧
      (FCPP.loggerUpdate pnext pupdate pull out reset valuePush s).aggs =
        s.aggs ∧
      (FCPP.loggerUpdate pnext pupdate pull out reset valuePush s).parent =
        pupdate s.parent) ∧
    FCPP.loggerNext pnext s =
      min (FCPP.schedNext s.pending) (pnext s.parent) := by
  refine ⟨?_, ?_, rfl⟩
  · intro h
    refine ⟨by simp [FCPP.loggerUpdate, if_pos h],
      by cases valuePush <;> simp [hpull],
      by simp [FCPP.loggerUpdate, if_pos h],
      by simp [FCPP.loggerUpdate, if_pos h], ?_, ?_⟩
    · intro hv
      subst hv
      simp [FCPP.loggerUpdate, if_pos h, List.map_const', hpull]
    · intro hv
      subst hv
      simp [FCPP.loggerUpdate, if_pos h]
  · intro h
    exact ⟨by simp [FCPP.loggerUpdate, if_neg h],
      by simp [FCPP.loggerUpdate, if_neg h],
      by simp [FCPP.loggerUpdate, if_neg h],
      by simp [FCPP.loggerUpdate, if_neg h]⟩

/-- C5 witness: a schedule with events at `1, 2` and an idle parent net:
`update()` consumes exactly the first scheduled event. -/
theorem logger_update_spec_witness :
    (FCPP.loggerUpdate (fun _ : Unit => (⊤ : FCPP.Time)) id (fun _ a => a)
        (fun _ : ℕ => "0") 0 true ⟨(), [1, 2], [0], []⟩).pending =
      ([1, 2] : List ℚ).tail :=
  ((logger_update_spec (fun _ : Unit => (⊤ : FCPP.Time)) id (fun _ a => a)
      (fun _ : ℕ => "0") 0 true ⟨(), [1, 2], [0], []⟩
      (fun _ _ => rfl)).1 (by simp [FCPP.schedNext])).2.2.1

/-- Every row extracted by the node-reading loop has one value per
declared attribute tag. -/
theorem full_chunks_spec (n : ℕ) (toks : List ℚ) :
    ∀ c ∈ FCPP.full_chunks n toks, c.length = n := by
  induction toks using FCPP.full_chunks.induct n with
  | case1 toks h ih =>
      rw [FCPP.full_chunks, dif_pos h]
      intro c hc
      rcases List.mem_cons.mp hc with rfl | hc'
      · simp [List.length_take, Nat.min_eq_left h.2]
      · exact ih c hc'
  | case2 toks h =>
      rw [FCPP.full_chunks, dif_neg h]
      intro c hc
      exact absurd hc (List.not_mem_nil c)

/-- The `size_t` member reproduces a nonnegative integral start value
below `2^64` exactly. -/
theorem m_start_nat (n : ℕ) (h : n < 2 ^ 64) :
    FCPP.m_start (some ((n : ℚ))) = n := by
  unfold FCPP.m_start FCPP.size_t_of FCPP.truncToInt
  rw [Option.getD_some, if_pos (by positivity), Int.floor_natCast,
    Int.emod_eq_of_lt (by positivity) (by exact_mod_cast h), Int.toNat_natCast]

/-- C8 counterexample: with no declared `start` attribute and the
net-initialisation start value `1/2`, the emplaced tuple's appended
`start` field is `0` (the value truncated through `size_t m_start`), not
the initialisation value `1/2` — so the appended start is not equal to
the `tags::start` initialisation value as the claim states. -/
theorem read_nodes_start_counterexample :
    FCPP.read_nodes ["a"] (some (1 / 2)) [5] =
      [[("a", 5), ("start", 0)]] ∧ ((1 : ℚ) / 2) ≠ 0 := by
  constructor
  · have hfl : ⌊(2⁻¹ : ℚ)⌋ = 0 := by
      rw [Int.floor_eq_iff]
      norm_num
    have hm : FCPP.m_start (some (2⁻¹ : ℚ)) = 0 := by
      unfold FCPP.m_start FCPP.size_t_of FCPP.truncToInt
      rw [Option.getD_some, if_pos (by norm_num), hfl]
      rfl
    simp [FCPP.read_nodes, FCPP.full_chunks, FCPP.push_time, hm]
  · norm_num

/-- C8, amended: every node emplaced by `read_nodes` carries a `start`
attribute: when `tags::start` is among the declared attributes its value
comes from the nodes file with the other attributes (the tuple is
exactly the declared tags zipped with the file values); otherwise the
appended `start` field holds the net-initialisation start value as
converted through the `size_t` member `m_start` (fractional values
truncate, negative integral values wrap), which reproduces the given
value exactly when it is a nonnegative integer below `2^64`, and
defaults to `0` when not given. -/
theorem read_nodes_start_attr (tags : List String) (initStart : Option ℚ)
    (toks : List ℚ) :
    ∀ r ∈ FCPP.read_nodes tags initStart toks,
      (∃ v, ("start", v) ∈ r) ∧
      ("start" ∉ tags →
        r.getLast? = some ("start", ((FCPP.m_start initStart : ℕ) : ℚ))) ∧
      ("start" ∉ tags → ∀ n : ℕ, n < 2 ^ 64 → initStart = some ((n : ℚ)) →
        r.getLast? = some ("start", (n : ℚ))) ∧
      ("start" ∉ tags → initStart = none → r.getLast? = some ("start", 0)) ∧
      ("start" ∈ tags → r.map Prod.fst = tags) := by
  intro r hr
  rcases List.mem_map.mp hr with ⟨c, hc, rfl⟩
  have hlen : c.length = tags.length := full_chunks_spec _ _ c hc
  by_cases hs : "start" ∈ tags
  · have hrow : FCPP.push_time (decide ("start" ∈ tags))
        (FCPP.m_start initStart) (tags.zip c) = tags.zip c := by
      simp [FCPP.push_time, hs]
    rw [hrow]
    have hmap : (tags.zip c).map Prod.fst = tags :=
      List.map_fst_zip tags c (le_of_eq hlen.symm)
    refine ⟨?_, fun h => absurd hs h, fun h => absurd hs h,
      fun h _ => absurd hs h, fun _ => hmap⟩
    have hmem : "start" ∈ (tags.zip c).map Prod.fst := by rw [hmap]; exact hs
    rcases List.mem_map.mp hmem with ⟨p, hp, hfst⟩
    cases p with
    | mk x v =>
        cases hfst
        exact ⟨v, hp⟩
  · have hrow : FCPP.push_time (decide ("start" ∈ tags))
        (FCPP.m_start initStart) (tags.zip c) =
        tags.zip c ++ [("start", ((FCPP.m_start initStart : ℕ) : ℚ))] := by
      simp [FCPP.push_time, hs]
    rw [hrow]
    refine ⟨⟨((FCPP.m_start initStart : ℕ) : ℚ), by simp⟩,
      fun _ => List.getLast?_concat _, ?_, ?_, fun h => absurd h hs⟩
    · intro _ n hn hinit
      rw [List.getLast?_concat, hinit, m_start_nat n hn]
    · intro _ hnone
      rw [List.getLast?_concat]
      subst hnone
      norm_num [FCPP.m_start, FCPP.size_t_of, FCPP.truncToInt]

/-- C8 witness: one declared attribute `"a"` without a declared start and
no initialisation start value: the emplaced tuple gets `start = 0`
appended. -/
theorem read_nodes_start_attr_witness :
    ∃ v, ("start", v) ∈ [("a", (5 : ℚ)), ("start", 0)] :=
  (read_nodes_start_attr ["a"] none [5] [("a", 5), ("start", 0)]
    (by simp [FCPP.read_nodes, FCPP.full_chunks, FCPP.push_time,
      FCPP.m_start, FCPP.size_t_of, FCPP.truncToInt])).1

/-- Unfolding `setIn` on a cons. -/
theorem setIn_cons (u : ℕ) (f : FCPP.LNode → FCPP.LNode) (m : FCPP.LNode)
    (rest : List FCPP.LNode) :
    FCPP.setIn u f (m :: rest) =
      (if m.uid = u then f m else m) :: FCPP.setIn u f rest := rfl

/-- `setIn` is the identity when no node has the given uid. -/
theorem setIn_id (u : ℕ) (f : FCPP.LNode → FCPP.LNode) :
    ∀ nodes : List FCPP.LNode, (∀ k ∈ nodes, k.uid ≠ u) →
      FCPP.setIn u f nodes = nodes := by
  intro nodes
  induction nodes with
  | nil => intro _; rfl
  | cons m rest ih =>
      intro h
      rw [setIn_cons, if_neg (h m (by simp)), ih (fun k hk => h k (by simp [hk]))]

/-- `setIn` with a uid-preserving update leaves the uid list unchanged. -/
theorem setIn_map_uid (u : ℕ) (f : FCPP.LNode → FCPP.LNode)
    (hf : ∀ m, (f m).uid = m.uid) :
    ∀ nodes : List FCPP.LNode,
      (FCPP.setIn u f nodes).map (fun n => n.uid) =
        nodes.map (fun n => n.uid) := by
  intro nodes
  induction nodes with
  | nil => rfl
  | cons m rest ih =>
      rw [setIn_cons, List.map_cons, List.map_cons, ih]
      by_cases hm : m.uid = u <;> simp [hm, hf]

/-- Unfolding `aggOf` on a cons. -/
theorem aggOf_cons (m : FCPP.LNode) (rest : List FCPP.LNode) :
    FCPP.aggOf (m :: rest) =
      if m.inRound then FCPP.aggOf rest else m.storage ::ₘ FCPP.aggOf rest := by
  unfold FCPP.aggOf
  cases hm : m.inRound <;> simp [List.filter_cons, hm]

/-- A node outside a round contributes its storage to `aggOf`. -/
theorem mem_aggOf {n : FCPP.LNode} {nodes : List FCPP.LNode}
    (hmem : n ∈ nodes) (hr : n.inRound = false) :
    n.storage ∈ FCPP.aggOf nodes := by
  unfold FCPP.aggOf
  rw [Multiset.mem_coe, List.mem_map]
  exact ⟨n, List.mem_filter.mpr ⟨hmem, by simp [hr]⟩, rfl⟩

/-- Erasing a value present in the tail commutes with cons. -/
theorem cons_erase_mem {h v : ℤ} {t : Multiset ℤ} (hv : v ∈ t) :
    (h ::ₘ t).erase v = h ::ₘ t.erase v := by
  by_cases he : h = v
  · subst he
    rw [Multiset.erase_cons_head]
    exact (Multiset.cons_erase hv).symm
  · exact Multiset.erase_cons_tail t he

/-- Effect of `round_start` on the implied aggregator contents: the
found node's storage is erased. -/
theorem aggOf_roundStart (u : ℕ) (n : FCPP.LNode) :
    ∀ nodes : List FCPP.LNode, (nodes.map (fun k => k.uid)).Nodup →
      nodes.find? (fun k => k.uid = u) = some n → n.inRound = false →
      FCPP.aggOf (FCPP.setIn u (fun m => { m with inRound := true }) nodes) =
        (FCPP.aggOf nodes).erase n.storage := by
  intro nodes
  induction nodes with
  | nil => intro _ hfind _; simp at hfind
  | cons m rest ih =>
      intro hnodup hfind hr
      rw [List.map_cons, List.nodup_cons] at hnodup
      by_cases hm : m.uid = u
      · rw [List.find?_cons_of_pos _ (by simp [hm])] at hfind
        injection hfind with hmn
        subst hmn
        have hrest : FCPP.setIn u (fun m => { m with inRound := true }) rest = rest := by
          refine setIn_id u _ rest (fun k hk hku => hnodup.1 ?_)
          rw [List.mem_map]
          exact ⟨k, hk, by rw [hku, hm]⟩
        rw [setIn_cons, if_pos hm, hrest, aggOf_cons, aggOf_cons]
        simp [hr, Multiset.erase_cons_head]
      · rw [List.find?_cons_of_neg _ (by simp [hm])] at hfind
        have hnmem : n ∈ rest := List.mem_of_find?_eq_some hfind
        rw [setIn_cons, if_neg hm, aggOf_cons, aggOf_cons,
          ih hnodup.2 hfind hr]
        by_cases hmi : m.inRound
        · simp [hmi]
        · simp only [hmi, if_false, Bool.false_eq_true]
          exact (cons_erase_mem (mem_aggOf hnmem hr)).symm

/-- A storage write during a round does not change the implied
aggregator contents. -/
theorem aggOf_setStorage (u : ℕ) (v : ℤ) (n : FCPP.LNode) :
    ∀ nodes : List FCPP.LNode, (nodes.map (fun k => k.uid)).Nodup →
      nodes.find? (fun k => k.uid = u) = some n → n.inRound = true →
      FCPP.aggOf (FCPP.setIn u (fun m => { m with storage := v }) nodes) =
        FCPP.aggOf nodes := by
  intro nodes
  induction nodes with
  | nil => intro _ hfind _; simp at hfind
  | cons m rest ih =>
      intro hnodup hfind hr
      rw [List.map_cons, List.nodup_cons] at hnodup
      by_cases hm : m.uid = u
      · rw [List.find?_cons_of_pos _ (by simp [hm])] at hfind
        injection hfind with hmn
        subst hmn
        have hrest : FCPP.setIn u (fun m => { m with storage := v }) rest = rest := by
          refine setIn_id u _ rest (fun k hk hku => hnodup.1 ?_)
          rw [List.mem_map]
          exact ⟨k, hk, by rw [hku, hm]⟩
        rw [setIn_cons, if_pos hm, hrest, aggOf_cons, aggOf_cons]
        simp [hr]
      · rw [List.find?_cons_of_neg _ (by simp [hm])] at hfind
        rw [setIn_cons, if_neg hm, aggOf_cons, aggOf_cons,
          ih hnodup.2 hfind hr]

/-- Effect of `round_end` on the implied aggregator contents: the found
node's (possibly updated) storage is inserted. -/
theorem aggOf_roundEnd (u : ℕ) (n : FCPP.LNode) :
    ∀ nodes : List FCPP.LNode, (nodes.map (fun k => k.uid)).Nodup →
      nodes.find? (fun k => k.uid = u) = some n → n.inRound = true →
      FCPP.aggOf (FCPP.setIn u (fun m => { m with inRound := false }) nodes) =
        n.storage ::ₘ FCPP.aggOf nodes := by
  intro nodes
  induction nodes with
  | nil => intro _ hfind _; simp at hfind
  | cons m rest ih =>
      intro hnodup hfind hr
      rw [List.map_cons, List.nodup_cons] at hnodup
      by_cases hm : m.uid = u
      · rw [List.find?_cons_of_pos _ (by simp [hm])] at hfind
        injection hfind with hmn
        subst hmn
        have hrest : FCPP.setIn u (fun m => { m with inRound := false }) rest = rest := by
          refine setIn_id u _ rest (fun k hk hku => hnodup.1 ?_)
          rw [List.mem_map]
          exact ⟨k, hk, by rw [hku, hm]⟩
        rw [setIn_cons, if_pos hm, hrest, aggOf_cons, aggOf_cons]
        simp [hr]
      · rw [List.find?_cons_of_neg _ (by simp [hm])] at hfind
        rw [setIn_cons, if_neg hm, aggOf_cons, aggOf_cons,
          ih hnodup.2 hfind hr]
        by_cases hmi : m.inRound
        · simp [hmi]
        · simp only [hmi, if_false, Bool.false_eq_true]
          exact Multiset.cons_swap _ _ _

/-- Effect of node destruction on the implied aggregator contents: the
found node's storage is erased along with the node. -/
theorem aggOf_erase (u : ℕ) (n : FCPP.LNode) :
    ∀ nodes : List FCPP.LNode, (nodes.map (fun k => k.uid)).Nodup →
      nodes.find? (fun k => k.uid = u) = some n → n.inRound = false →
      FCPP.aggOf (nodes.filter (fun m => m.uid ≠ u)) =
        (FCPP.aggOf nodes).erase n.storage := by
  intro nodes
  induction nodes with
  | nil => intro _ hfind _; simp at hfind
  | cons m rest ih =>
      intro hnodup hfind hr
      rw [List.map_cons, List.nodup_cons] at hnodup
      by_cases hm : m.uid = u
      · rw [List.find?_cons_of_pos _ (by simp [hm])] at hfind
        injection hfind with hmn
        subst hmn
        have hrest : rest.filter (fun k => k.uid ≠ u) = rest := by
          refine List.filter_eq_self.mpr (fun k hk => ?_)
          have hku : k.uid ≠ u :=
            fun hku => hnodup.1 (List.mem_map.mpr ⟨k, hk, by rw [hku, hm]⟩)
          simp [hku]
        rw [List.filter_cons_of_neg (by simp [hm]), hrest, aggOf_cons]
        simp [hr, Multiset.erase_cons_head]
      · rw [List.find?_cons_of_neg _ (by simp [hm])] at hfind
        have hnmem : n ∈ rest := List.mem_of_find?_eq_some hfind
        rw [List.filter_cons_of_pos (by simp [hm]), aggOf_cons, aggOf_cons,
          ih hnodup.2 hfind hr]
        by_cases hmi : m.inRound
        · simp [hmi]
        · simp only [hmi, if_false, Bool.false_eq_true]
          exact (cons_erase_mem (mem_aggOf hnmem hr)).symm

/-- Every lifecycle event preserves the push-mode logger invariant. -/
theorem stepEvt_inv {s s' : FCPP.AggState} {e : FCPP.Evt}
    (hs : FCPP.Inv s) (hstep : FCPP.stepEvt s e = some s') : FCPP.Inv s' := by
  obtain ⟨hnodup, hagg⟩ := hs
  cases e with
  | emplace u v =>
      simp only [FCPP.stepEvt] at hstep
      by_cases h : s.nodes.any (fun n => n.uid = u)
      · rw [if_pos h] at hstep; exact absurd hstep (by simp)
      · rw [if_neg h] at hstep
        injection hstep with h'
        subst h'
        simp only [List.any_eq_true, decide_eq_true_eq] at h
        push_neg at h
        constructor
        · rw [List.map_cons, List.nodup_cons]
          refine ⟨?_, hnodup⟩
          rw [List.mem_map]
          rintro ⟨k, hk, hku⟩
          exact h k hk hku
        · rw [aggOf_cons]
          simp only [if_false, Bool.false_eq_true]
          rw [hagg]
  | roundStart u =>
      simp only [FCPP.stepEvt] at hstep
      cases hfind : s.nodes.find? (fun k => k.uid = u) with
      | none => simp only [hfind] at hstep; exact absurd hstep (by simp)
      | some n =>
          simp only [hfind] at hstep
          by_cases hr : n.inRound
          · rw [if_pos hr] at hstep; exact absurd hstep (by simp)
          · rw [if_neg hr] at hstep
            injection hstep with h'
            subst h'
            have hrf : n.inRound = false := by simpa using hr
            refine ⟨?_, ?_⟩
            · show (List.map (fun n => n.uid) (FCPP.setIn u
                (fun m => { m with inRound := true }) s.nodes)).Nodup
              rw [setIn_map_uid u (fun m => { m with inRound := true })
                (fun m => rfl) s.nodes]
              exact hnodup
            · show s.agg.erase n.storage = FCPP.aggOf (FCPP.setIn u
                (fun m => { m with inRound := true }) s.nodes)
              rw [aggOf_roundStart u n s.nodes hnodup hfind hrf, hagg]
  | setStorage u v =>
      simp only [FCPP.stepEvt] at hstep
      cases hfind : s.nodes.find? (fun k => k.uid = u) with
      | none => simp only [hfind] at hstep; exact absurd hstep (by simp)
      | some n =>
          simp only [hfind] at hstep
          by_cases hr : n.inRound
          · rw [if_pos hr] at hstep
            injection hstep with h'
            subst h'
            refine ⟨?_, ?_⟩
            · show (List.map (fun n => n.uid) (FCPP.setIn u
                (fun m => { m with storage := v }) s.nodes)).Nodup
              rw [setIn_map_uid u (fun m => { m with storage := v })
                (fun m => rfl) s.nodes]
              exact hnodup
            · show s.agg = FCPP.aggOf (FCPP.setIn u
                (fun m => { m with storage := v }) s.nodes)
              rw [aggOf_setStorage u v n s.nodes hnodup hfind hr, hagg]
          · rw [if_neg hr] at hstep; exact absurd hstep (by simp)
  | roundEnd u =>
      simp only [FCPP.stepEvt] at hstep
      cases hfind : s.nodes.find? (fun k => k.uid = u) with
      | none => simp only [hfind] at hstep; exact absurd hstep (by simp)
      | some n =>
          simp only [hfind] at hstep
          by_cases hr : n.inRound
          · rw [if_pos hr] at hstep
            injection hstep with h'
            subst h'
            refine ⟨?_, ?_⟩
            · show (List.map (fun n => n.uid) (FCPP.setIn u
                (fun m => { m with inRound := false }) s.nodes)).Nodup
              rw [setIn_map_uid u (fun m => { m with inRound := false })
                (fun m => rfl) s.nodes]
              exact hnodup
            · show n.storage ::ₘ s.agg = FCPP.aggOf (FCPP.setIn u
                (fun m => { m with inRound := false }) s.nodes)
              rw [aggOf_roundEnd u n s.nodes hnodup hfind hr, hagg]
          · rw [if_neg hr] at hstep; exact absurd hstep (by simp)
  | erase u =>
      simp only [FCPP.stepEvt] at hstep
      cases hfind : s.nodes.find? (fun k => k.uid = u) with
      | none => simp only [hfind] at hstep; exact absurd hstep (by simp)
      | some n =>
          simp only [hfind] at hstep
          by_cases hr : n.inRound
          · rw [if_pos hr] at hstep; exact absurd hstep (by simp)
          · rw [if_neg hr] at hstep
            injection hstep with h'
            subst h'
            have hrf : n.inRound = false := by simpa using hr
            refine ⟨?_, ?_⟩
            · show (List.map (fun n => n.uid)
                (s.nodes.filter (fun m => m.uid ≠ u))).Nodup
              exact List.Nodup.sublist
                (List.Sublist.map _ (List.filter_sublist s.nodes)) hnodup
            · show s.agg.erase n.storage =
                FCPP.aggOf (s.nodes.filter (fun m => m.uid ≠ u))
              rw [aggOf_erase u n s.nodes hnodup hfind hrf, hagg]

/-- Folding lifecycle events preserves the invariant. -/
theorem foldEvts_inv (es : List FCPP.Evt) :
    ∀ o : Option FCPP.AggState, (∀ t, o = some t → FCPP.Inv t) →
      ∀ s, es.foldl (fun acc e => acc.bind (fun st => FCPP.stepEvt st e)) o =
        some s → FCPP.Inv s := by
  induction es with
  | nil => intro o ho s h; exact ho s h
  | cons e es ih =>
      intro o ho s h
      refine ih _ ?_ s h
      intro t ht
      cases o with
      | none => simp at ht
      | some t0 => exact stepEvt_inv (ho t0 rfl) (by simpa using ht)

/-- C9: after any well-formed sequence of node lifecycle events, when no
node is inside a round, the push-mode aggregators hold exactly one
contribution per live node, equal to that node's current storage tuple —
inserts and erases are balanced and no node is double-counted or stale. -/
theorem logger_push_balance (es : List FCPP.Evt) (s : FCPP.AggState)
    (h : FCPP.runEvts es = some s)
    (hout : ∀ n ∈ s.nodes, n.inRound = false) :
    s.agg = ((s.nodes.map (fun n => n.storage) : List ℤ) : Multiset ℤ) := by
  have hinv : FCPP.Inv s := by
    refine foldEvts_inv es (some ⟨[], 0⟩) ?_ s h
    intro t ht
    injection ht with ht'
    subst ht'
    exact ⟨by simp, by simp [FCPP.aggOf]⟩
  rw [hinv.2]
  unfold FCPP.aggOf
  rw [List.filter_eq_self.mpr (fun n hn => by simp [hout n hn])]

/-- C9 witness: one node constructed with storage `5`, running one round
that rewrites its storage to `7`: afterwards the aggregators hold exactly
the single contribution `7`. -/
theorem logger_push_balance_witness :
    (FCPP.AggState.mk [⟨1, 7, false⟩] {7}).agg =
      ((([⟨1, 7, false⟩] : List FCPP.LNode).map (fun n => n.storage) :
        List ℤ) : Multiset ℤ) :=
  logger_push_balance
    [.emplace 1 5, .roundStart 1, .setStorage 1 7, .roundEnd 1]
    (FCPP.AggState.mk [⟨1, 7, false⟩] {7}) (by decide) (by decide)

end FCPP
